import Mathlib

/-!
# ChainedGraphs

A verification development for the `chainedgraphs` command.

* Part 1 embeds `cmd/chainedgraphs/main.go` together with the pieces of the Go
  standard library it calls (`flag.Bool`, `flag.Parse`, `log.Fatal`).
* Part 2 models the chain resolver and the executor of the package
  `internal/chainedgraphs`, which `main.go` only calls.
-/

set_option autoImplicit false

namespace ChainedGraphs

/-! ## Part 1: the process entry point -/

/-- A Go string, as the sequence of its characters.  The flag parser only ever
compares against the ASCII characters `-` and `=`, which never occur inside the
encoding of another character, so reading characters instead of bytes changes
nothing. -/
abbrev GoString := List Char

/-- Go `strconv.ParseBool`: the spellings accepted for a boolean. -/
def parseBool (s : GoString) : Option Bool :=
  if s ∈ ["1", "t", "T", "TRUE", "true", "True"].map String.toList then some true
  else if s ∈ ["0", "f", "F", "FALSE", "false", "False"].map String.toList then some false
  else none

/-- The errors `(*FlagSet).parseOne` can return: `flag.ErrHelp`, or one of the
three errors built by `failf` when only a boolean flag is defined. -/
inductive FlagError where
  | errHelp
  | badSyntax (arg : GoString)
  | notDefined (name : GoString)
  | invalidBool (value : GoString) (name : GoString)
  deriving DecidableEq, Repr

/-- Go `for i := 1; i < len(name); i++ { if name[i] == '=' { ... break } }` seen
from index `i` on: the part before the first `=` and, when there is one, the
part after it. -/
def splitAtEq : GoString → GoString × Option GoString
  | [] => ([], none)
  | c :: cs =>
    if c = '=' then ([], some cs)
    else ((c :: (splitAtEq cs).1), (splitAtEq cs).2)

/-- The `name`/`value` split of `parseOne`; the scan starts at index 1, so an
equals sign cannot be first. -/
def splitNameValue : GoString → GoString × Option GoString
  | [] => ([], none)
  | c :: cs => (c :: (splitAtEq cs).1, (splitAtEq cs).2)

/-- What one call of `parseOne` does with the first remaining argument. -/
inductive ParseOne where
  /-- Go `return false, nil` without consuming: the argument is not a flag. -/
  | notFlag
  /-- Go `return false, nil` after consuming `--`. -/
  | terminator
  /-- Go `return false, err`. -/
  | fail (err : FlagError)
  /-- Go `return true, nil` after `fv.Set` stored the value in the variable of `-verbose`. -/
  | set (value : Bool)
  deriving DecidableEq, Repr

/-- Go `(*FlagSet).parseOne` on first argument `s`, for the flag set of
`main`, whose only formal flag is the boolean flag `verbose`. -/
def parseOne (s : GoString) : ParseOne :=
  if s.length < 2 ∨ s.head? ≠ some '-' then .notFlag
  else
    let numMinuses := if s.get? 1 = some '-' then 2 else 1
    if numMinuses = 2 ∧ s.length = 2 then .terminator
    else
      let name := s.drop numMinuses
      if name.length = 0 ∨ name.head? = some '-' ∨ name.head? = some '=' then
        .fail (.badSyntax s)
      else
        let nv := splitNameValue name
        if nv.1 ≠ "verbose".toList then
          if nv.1 = "help".toList ∨ nv.1 = "h".toList then .fail .errHelp
          else .fail (.notDefined nv.1)
        else
          match nv.2 with
          | some value =>
            match parseBool value with
            | some b => .set b
            | none => .fail (.invalidBool value nv.1)
          | none => .set true

/-- The part of `parseOne` after the flag name has been cut out of the argument. -/
def parseNamed (s name : GoString) : ParseOne :=
  if name.length = 0 ∨ name.head? = some '-' ∨ name.head? = some '=' then
    .fail (.badSyntax s)
  else
    if (splitNameValue name).1 ≠ "verbose".toList then
      if (splitNameValue name).1 = "help".toList ∨ (splitNameValue name).1 = "h".toList then
        .fail .errHelp
      else .fail (.notDefined (splitNameValue name).1)
    else
      match (splitNameValue name).2 with
      | some value =>
        match parseBool value with
        | some b => .set b
        | none => .fail (.invalidBool value (splitNameValue name).1)
      | none => .set true

/-- How the loop of `(*FlagSet).Parse` ends. -/
inductive ParseResult where
  /-- The loop reached `break`: the value of `*verbose` and the arguments left over. -/
  | parsed (verbose : Bool) (rest : List GoString)
  /-- The loop reached the `switch f.errorHandling`. -/
  | failed (err : FlagError)
  deriving DecidableEq, Repr

/-- Go `(*FlagSet).Parse`: call `parseOne` until it reports no flag seen.
`verbose` is the current value of the flag variable. -/
def Parse (verbose : Bool) : List GoString → ParseResult
  | [] => .parsed verbose []
  | s :: rest =>
    match parseOne s with
    | .notFlag => .parsed verbose (s :: rest)
    | .terminator => .parsed verbose rest
    | .fail err => .failed err
    | .set b => Parse b rest

/-- The exit status `flag.CommandLine` (error handling `ExitOnError`) leaves
with in `(*FlagSet).Parse`: `os.Exit(0)` for `ErrHelp`, `os.Exit(2)` for any
other error. -/
def exitOnError : FlagError → Nat
  | .errHelp => 0
  | _ => 2

/-- The observable steps of one run of the process, in order. -/
inductive Event (App : Type) where
  /-- Go `flag.Bool(name, value, usage)` registered a flag. -/
  | flagBool (name : GoString) (value : Bool)
  /-- Go `flag.Parse()` returned, the arguments parsed. -/
  | flagParse (args : List GoString)
  /-- The flag package reported `err` and printed the usage text. -/
  | flagUsage (err : FlagError)
  /-- Go `chainedgraphs.NewApp(verbose)` was called. -/
  | newApp (verbose : Bool)
  /-- Go `app.Run()` was called on `app`. -/
  | run (app : App)
  /-- The standard logger wrote a line whose text is `msg`. -/
  | logPrint (msg : GoString)
  /-- The process ended with status `code`. -/
  | exit (code : Nat)
  deriving DecidableEq, Repr

/-- Go `log.Fatal(err)`: `log.Print(err)` followed by `os.Exit(1)`. -/
def logFatal {App : Type} (err : GoString) : List (Event App) :=
  [.logPrint err, .exit 1]

/-- Go `main` of `cmd/chainedgraphs/main.go`, as the trace it produces.
`NewApp` and `Run` belong to `internal/chainedgraphs`; `Run` gives `none` for a
nil error and the text of the error otherwise.  `args` is `os.Args[1:]`.
Returning from `main` ends the process with status 0. -/
def main {App : Type} (NewApp : Bool → App) (Run : App → Option GoString)
    (args : List GoString) : List (Event App) :=
  [.flagBool "verbose".toList false] ++
  match Parse false args with
  | .failed err => [.flagUsage err, .exit (exitOnError err)]
  | .parsed verbose _ =>
    [.flagParse args] ++
    let app := NewApp verbose
    [.newApp verbose] ++
    [.run app] ++
    match Run app with
    | some err => logFatal err
    | none => [.exit 0]

/-- The status the process ends with: that of the first `exit` in the trace. -/
def exitCode {App : Type} : List (Event App) → Option Nat
  | [] => none
  | .exit code :: _ => some code
  | _ :: t => exitCode t

/-- The texts written through the standard logger, in order. -/
def logged {App : Type} : List (Event App) → List GoString
  | [] => []
  | .logPrint msg :: t => msg :: logged t
  | _ :: t => logged t

/-- The arguments `NewApp` was called with, in order. -/
def newAppCalls {App : Type} : List (Event App) → List Bool
  | [] => []
  | .newApp v :: t => v :: newAppCalls t
  | _ :: t => newAppCalls t

/-- The apps `Run` was called on, in order. -/
def runCalls {App : Type} : List (Event App) → List App
  | [] => []
  | .run a :: t => a :: runCalls t
  | _ :: t => runCalls t

/-- The command line is accepted by the flag parser: `flag.Parse()` returns. -/
def Accepted (args : List GoString) : Prop :=
  ∃ verbose rest, Parse false args = .parsed verbose rest

instance (args : List GoString) : Decidable (Accepted args) :=
  match h : Parse false args with
  | .parsed v r => isTrue ⟨v, r, h⟩
  | .failed e => isFalse (by rintro ⟨v, r, h2⟩; rw [h] at h2; cases h2)

/-! ### The command line as the specification reads it -/

/-- An argument written in flag form: at least two characters, the first a
dash, and not the bare `--` that ends the flags. -/
def isFlagToken (s : GoString) : Bool :=
  decide (2 ≤ s.length) && (s.head? == some '-') && (s != "--".toList)

/-- The spellings of a boolean flag value, as the documentation of Go's flag
package lists them: `1`, `t`, `T`, `TRUE`, `true`, `True` for true and `0`,
`f`, `F`, `FALSE`, `false`, `False` for false. -/
def boolSpellings : List (GoString × Bool) :=
  [("1".toList, true), ("t".toList, true), ("T".toList, true),
   ("TRUE".toList, true), ("true".toList, true), ("True".toList, true),
   ("0".toList, false), ("f".toList, false), ("F".toList, false),
   ("FALSE".toList, false), ("false".toList, false), ("False".toList, false)]

/-- The boolean a text spells, read off the table of spellings; no boolean for
any other text. -/
def spelledBool (x : GoString) : Option Bool :=
  (boolSpellings.find? fun p => p.1 = x).map fun p => p.2

/-- The boolean an argument gives to the flag `verbose`, when the argument
names that flag: `-verbose` and `--verbose` mean true, `-verbose=x` and
`--verbose=x` mean the boolean spelled `x`. -/
def verboseTokenValue (s : GoString) : Option Bool :=
  if s = "-verbose".toList ∨ s = "--verbose".toList then some true
  else if s.take 9 = "-verbose=".toList then spelledBool (s.drop 9)
  else if s.take 10 = "--verbose=".toList then spelledBool (s.drop 10)
  else none

/-- The leading arguments of the command line that are written in flag form;
everything from the first other argument on is positional. -/
def flagSection (args : List GoString) : List GoString :=
  args.takeWhile isFlagToken

/-- The value of the `-verbose` flag on a command line: that of its last
occurrence among the flags, and false when it is not given. -/
def verboseOnCommandLine (args : List GoString) : Bool :=
  (((flagSection args).filterMap verboseTokenValue).getLast?).getD false

/-! ## Part 2: chain resolution and execution

The package `internal/chainedgraphs` is called by `main.go` but its source is
not part of the sources at hand; the definitions below follow sections 3 and 4
of the specification. -/

/-- Modelled from the spec: the `GraphID` of section 3, an identifier of a graph
within a chain. -/
abbrev GraphID := Nat

/-- Modelled from the spec: the `NodeID` of section 3, an identifier of a node,
scoped to its owning graph. -/
abbrev NodeID := Nat

/-- Modelled from the spec: a vertex of the combined dependency graph of
section 4.3, a `(GraphID, NodeID)` pair. -/
abbrev NodeRef := GraphID × NodeID

/-- Modelled from the spec: the `Node` of section 3 with its identifier and its
intra-graph predecessors; the action is handed to the executor separately. -/
structure Node where
  id : NodeID
  predecessors : List NodeID
  deriving DecidableEq, Repr

/-- Modelled from the spec: the `Graph` of section 3, its identifier and its
nodes in insertion order. -/
structure Graph where
  id : GraphID
  nodes : List Node
  deriving DecidableEq, Repr

/-- Modelled from the spec: the `ChainLink` of section 3; the target node
depends on completion of the source node. -/
structure ChainLink where
  source : NodeRef
  target : NodeRef
  deriving DecidableEq, Repr

/-- Modelled from the spec: the `ChainLinkTable` of section 3, a set of links. -/
abbrev ChainLinkTable := List ChainLink

/-- Modelled from the spec: the `ExecutionPlan` of section 3, the levels in
order, each level a list of nodes. -/
abbrev ExecutionPlan := List (List NodeRef)

/-- Modelled from the spec: the errors of the Chain Resolver (section 4.3). The
last constructor is not an error of the specification: it marks the level loop
running out of its iteration bound, which `kahnLevels_fuel` shows never
happens. -/
inductive ResolveError where
  | cycleError (path : List NodeRef)
  | unknownNodeError (link : ChainLink)
  | iterationBound
  deriving DecidableEq, Repr

/-- Modelled from the spec: the vertices of the combined dependency graph
(section 4.3), every `(GraphID, NodeID)` pair of every graph, as a set. -/
def vertices (graphs : List Graph) : List NodeRef :=
  (graphs.flatMap fun g => g.nodes.map fun n => (g.id, n.id)).dedup

/-- Modelled from the spec: the internal edges of the graphs (section 4.3 (a)),
from each predecessor to the node that names it. -/
def internalEdges (graphs : List Graph) : List (NodeRef × NodeRef) :=
  graphs.flatMap fun g => g.nodes.flatMap fun n =>
    n.predecessors.map fun p => ((g.id, p), (g.id, n.id))

/-- Modelled from the spec: the edges given by the chain links (section 4.3
(b)), from source to target. -/
def linkEdges (links : ChainLinkTable) : List (NodeRef × NodeRef) :=
  links.map fun l => (l.source, l.target)

/-- Modelled from the spec: the edges of the combined dependency graph (section
4.3), the union of the internal edges and the chain links; duplicates
collapse. -/
def edges (graphs : List Graph) (links : ChainLinkTable) : List (NodeRef × NodeRef) :=
  (internalEdges graphs ++ linkEdges links).dedup

/-- Modelled from the spec: the dependencies of a vertex, intra-graph and
cross-graph: the sources of the edges that end in it. -/
def dependencies (E : List (NodeRef × NodeRef)) (v : NodeRef) : List NodeRef :=
  (E.filter fun e => e.2 = v).map fun e => e.1

/-- Modelled from the spec: the in-degree of a vertex (section 4.3). -/
def inDegree (E : List (NodeRef × NodeRef)) (v : NodeRef) : Nat :=
  (dependencies E v).length

/-- Modelled from the spec: one decrement of the in-degree of vertex `s`
(section 4.3). -/
def decrement (inDeg : NodeRef → Nat) (s : NodeRef) : NodeRef → Nat :=
  fun v => if v = s then inDeg v - 1 else inDeg v

/-- Modelled from the spec: the tie-break order within a level (section 4.3),
`(GraphID, NodeID)` ascending. -/
def refLe (a b : NodeRef) : Prop :=
  a.1 < b.1 ∨ (a.1 = b.1 ∧ a.2 ≤ b.2)

instance : DecidableRel refLe := fun a b =>
  inferInstanceAs (Decidable (a.1 < b.1 ∨ (a.1 = b.1 ∧ a.2 ≤ b.2)))

/-- Modelled from the spec: the walk of section 4.3 that finds a cycle among
the vertices left with positive in-degree, following from `v` an unresolved
predecessor edge at each step until a vertex repeats.  `seen` is the walk so
far, latest first; the result lists the cycle so that each vertex is a
dependency of the next and the last one of the first. -/
def findCycle (E : List (NodeRef × NodeRef)) (remaining : List NodeRef) :
    Nat → NodeRef → List NodeRef → List NodeRef
  | 0, _, _ => []
  | n + 1, v, seen =>
    if v ∈ seen then v :: seen.takeWhile (fun u => u ≠ v)
    else
      match (dependencies E v).find? (fun p => p ∈ remaining) with
      | none => []
      | some p => findCycle E remaining n p (v :: seen)

/-- Modelled from the spec: the level-by-level topological sort of section
4.3.  `inDeg` is the current in-degree of every vertex and `unassigned` the
vertices not yet assigned a level.  Each round takes all unassigned vertices of
in-degree zero as the next level, in tie-break order, and decrements the
in-degree of their successors; when no vertex has in-degree zero the vertices
left over, if any, are on a cycle.  The first argument bounds the number of
rounds. -/
def kahnLevels (E : List (NodeRef × NodeRef)) :
    Nat → (NodeRef → Nat) → List NodeRef → Except ResolveError ExecutionPlan
  | 0, _, _ => .error .iterationBound
  | fuel + 1, inDeg, unassigned =>
    let ready := unassigned.filter fun v => inDeg v = 0
    if ready = [] then
      match unassigned with
      | [] => .ok []
      | v :: rest => .error (.cycleError (findCycle E (v :: rest) (rest.length + 2) v []))
    else
      let inDeg2 := (E.filter fun e => e.1 ∈ ready).foldl (fun d e => decrement d e.2) inDeg
      match kahnLevels E fuel inDeg2 (unassigned.filter fun v => v ∉ ready) with
      | .ok levels => .ok (ready.insertionSort refLe :: levels)
      | .error err => .error err

/-- Modelled from the spec: the Chain Resolver of section 4.3.  A link with an
endpoint that is no node of the graphs gives `UnknownNodeError`; otherwise the
graphs and the links are merged and sorted into levels. -/
def resolve (graphs : List Graph) (links : ChainLinkTable) :
    Except ResolveError ExecutionPlan :=
  match links.find? (fun l => l.source ∉ vertices graphs ∨ l.target ∉ vertices graphs) with
  | some l => .error (.unknownNodeError l)
  | none =>
    kahnLevels (edges graphs links) ((vertices graphs).length + 1)
      (inDegree (edges graphs links)) (vertices graphs)

/-- Modelled from the spec: the level a plan places a node in, the index of the
first level that holds it. -/
def levelOf : ExecutionPlan → NodeRef → Option Nat
  | [], _ => none
  | level :: rest, v => if v ∈ level then some 0 else (levelOf rest v).map (· + 1)

/-- The plan being built assigns levels as early as possible: with `assigned`
the vertices of the levels before, each level is non-empty and holds exactly
the unassigned vertices whose dependencies are all assigned, each once, and
after the last level every vertex is assigned. -/
def EarliestLevels (E : List (NodeRef × NodeRef)) (V : List NodeRef) :
    List NodeRef → ExecutionPlan → Prop
  | assigned, [] => ∀ v ∈ V, v ∈ assigned
  | assigned, level :: rest =>
    level ≠ [] ∧ level.Nodup ∧
    (∀ v, v ∈ level ↔ v ∈ V ∧ v ∉ assigned ∧ ∀ d ∈ dependencies E v, d ∈ assigned) ∧
    EarliestLevels E V (assigned ++ level) rest

/-- A closed walk along dependency edges: every vertex of `c` is a dependency
of the next one, and the last is a dependency of the first. -/
def IsCycle (E : List (NodeRef × NodeRef)) (c : List NodeRef) : Prop :=
  c ≠ [] ∧ ∀ i, i < c.length → (c.getD i (0, 0), c.getD ((i + 1) % c.length) (0, 0)) ∈ E

instance (E : List (NodeRef × NodeRef)) (c : List NodeRef) : Decidable (IsCycle E c) :=
  inferInstanceAs (Decidable (c ≠ [] ∧
    ∀ i, i < c.length → (c.getD i (0, 0), c.getD ((i + 1) % c.length) (0, 0)) ∈ E))

/-- The largest level a plan gives to one of the nodes `ds` (0 when none of
them has a level). -/
def latestLevel (plan : ExecutionPlan) (ds : List NodeRef) : Nat :=
  (ds.filterMap (levelOf plan)).foldr max 0

/-- Modelled from the spec: the failure policy of the Executor (section 4.4). -/
inductive Policy where
  | failFast
  | bestEffort
  deriving DecidableEq, Repr

/-- Modelled from the spec: the per-node states of the Executor's state machine
(section 4.4); `succeeded`, `failed` and `skipped` are terminal. -/
inductive NodeState where
  | pending
  | ready
  | running
  | succeeded
  | failed
  | skipped
  deriving DecidableEq, Repr

/-- Modelled from the spec: the `NodeResult` of section 3, success with an
output value or failure with an error detail. -/
inductive NodeResult where
  | succeeded (output : Nat)
  | failed (detail : GoString)
  deriving DecidableEq, Repr

/-- Modelled from the spec: the caller-supplied action invoker of section 4.4.
A node's action receives the results of its direct dependencies and produces an
output or fails. -/
abbrev ActionInvoker := NodeRef → List (NodeRef × NodeResult) → NodeResult

/-- Modelled from the spec: what the Executor holds during a run (section 4.4):
the state of every node, the results and the failed and skipped nodes so far,
and the nodes whose action has been invoked, in order of invocation. -/
structure ExecState where
  state : NodeRef → NodeState
  results : List (NodeRef × NodeResult)
  failures : List NodeRef
  skips : List NodeRef
  invoked : List NodeRef

/-- Modelled from the spec: the start of a run, every node `Pending`. -/
def ExecState.start : ExecState :=
  ⟨fun _ => .pending, [], [], [], []⟩

/-- Modelled from the spec: the state map after node `v` moved to state `s`. -/
def setState (state : NodeRef → NodeState) (v : NodeRef) (s : NodeState) :
    NodeRef → NodeState :=
  fun u => if u = v then s else state u

/-- Modelled from the spec: the Executor's handling of one node of the current
level (section 4.4, state machine).  A node leaves `Pending` only once.  It is
`Skipped` when a dependency is `Failed` or `Skipped`.  Otherwise, when the run
is not halted by fail-fast and every dependency has succeeded, it becomes ready
and runs: its action is invoked on the results of its dependencies and the node
ends `Succeeded` or `Failed`.  Otherwise it is not started. -/
def stepNode (E : List (NodeRef × NodeRef)) (act : ActionInvoker) (halted : Bool)
    (st : ExecState) (v : NodeRef) : ExecState :=
  if st.state v ≠ .pending then st
  else if (dependencies E v).any
      (fun d => decide (st.state d = .failed) || decide (st.state d = .skipped)) then
    ⟨setState st.state v .skipped, st.results, st.failures, st.skips ++ [v], st.invoked⟩
  else if halted then st
  else if (dependencies E v).all (fun d => decide (st.state d = .succeeded)) then
    match act v (st.results.filter fun r => r.1 ∈ dependencies E v) with
    | .succeeded output =>
      ⟨setState st.state v .succeeded, st.results ++ [(v, .succeeded output)],
        st.failures, st.skips, st.invoked ++ [v]⟩
    | .failed detail =>
      ⟨setState st.state v .failed, st.results ++ [(v, .failed detail)],
        st.failures ++ [v], st.skips, st.invoked ++ [v]⟩
  else st

/-- Modelled from the spec: the Executor running one level (section 4.4), node
after node in the order of the plan, which is a conforming sequential
execution. -/
def runLevel (E : List (NodeRef × NodeRef)) (act : ActionInvoker) (halted : Bool)
    (st : ExecState) (level : List NodeRef) : ExecState :=
  level.foldl (stepNode E act halted) st

/-- Modelled from the spec: the Executor running the levels strictly in order
(section 4.4).  Under fail-fast, once a failure has been observed in a level no
node of a later level is started; under best-effort the run goes on. -/
def runLevels (policy : Policy) (E : List (NodeRef × NodeRef)) (act : ActionInvoker) :
    ExecState → ExecutionPlan → ExecState
  | st, [] => st
  | st, level :: rest =>
    runLevels policy E act
      (runLevel E act (decide (policy = .failFast) && !st.failures.isEmpty) st level) rest

/-- Modelled from the spec: the `RunOutcome` of section 3: whether the run
succeeded, every `NodeResult`, and the failed and skipped nodes. -/
structure RunOutcome where
  success : Bool
  results : List (NodeRef × NodeResult)
  failures : List NodeRef
  skips : List NodeRef
  deriving DecidableEq, Repr

/-- Modelled from the spec: the Executor's `Run(plan, actionInvoker)` of section
4.4 up to its last step, the state it ends in.  The events sent to the Run
Report sink and cancellation are left out. -/
def execute (policy : Policy) (E : List (NodeRef × NodeRef)) (act : ActionInvoker)
    (plan : ExecutionPlan) : ExecState :=
  runLevels policy E act ExecState.start plan

/-- Modelled from the spec: the `RunOutcome` the Executor returns (section 4.4);
the run is a success when no node failed. -/
def outcome (st : ExecState) : RunOutcome :=
  ⟨st.failures.isEmpty, st.results, st.failures, st.skips⟩

/-- The invariant of a run over the nodes `P` handled so far: a node not yet
handled is `Pending` and was not invoked; the dependencies of a handled node
are handled; a handled node with a `Failed` or `Skipped` dependency is `Skipped`
and was not invoked; and every `Failed` node is among the failures. -/
def ExecInv (E : List (NodeRef × NodeRef)) (P : List NodeRef) (st : ExecState) : Prop :=
  (∀ u, u ∉ P → st.state u = .pending ∧ u ∉ st.invoked) ∧
  (∀ u ∈ P, ∀ d ∈ dependencies E u, d ∈ P) ∧
  (∀ u ∈ P, ∀ d ∈ dependencies E u,
    (st.state d = .failed ∨ st.state d = .skipped) → st.state u = .skipped ∧ u ∉ st.invoked) ∧
  (∀ u, st.state u = .failed → u ∈ st.failures)

/-! ## Part 1: theorems about the process entry point -/

theorem splitAtEq_spec (cs : GoString) :
    cs = (splitAtEq cs).1 ++ (match (splitAtEq cs).2 with
      | none => []
      | some v => '=' :: v) := by
  induction cs with
  | nil => simp [splitAtEq]
  | cons c cs ih =>
    unfold splitAtEq
    by_cases hc : c = '='
    · simp [hc]
    · simp only [hc, if_false, List.cons_append]
      exact congrArg (c :: ·) ih

theorem splitNameValue_spec (name : GoString) :
    name = (splitNameValue name).1 ++ (match (splitNameValue name).2 with
      | none => []
      | some v => '=' :: v) := by
  cases name with
  | nil => simp [splitNameValue]
  | cons c cs =>
    simp only [splitNameValue, List.cons_append]
    exact congrArg (c :: ·) (splitAtEq_spec cs)

theorem parseOne_nil : parseOne [] = .notFlag := by
  simp [parseOne]

theorem parseOne_single (c : Char) : parseOne [c] = .notFlag := by
  simp [parseOne]

theorem parseOne_not_dash (c d : Char) (t : GoString) (h : c ≠ '-') :
    parseOne (c :: d :: t) = .notFlag := by
  simp [parseOne, h]

theorem parseOne_terminator : parseOne ['-', '-'] = .terminator := by
  simp [parseOne]

theorem parseOne_double (t : GoString) (h : t ≠ []) :
    parseOne ('-' :: '-' :: t) = parseNamed ('-' :: '-' :: t) t := by
  simp [parseOne, parseNamed, h]

theorem parseOne_one (d : Char) (t : GoString) (h : d ≠ '-') :
    parseOne ('-' :: d :: t) = parseNamed ('-' :: d :: t) (d :: t) := by
  simp [parseOne, parseNamed, h]

theorem parseNamed_set (s name : GoString) (b : Bool) (h : parseNamed s name = .set b) :
    (name = "verbose".toList ∧ b = true) ∨
      ∃ v, name = "verbose=".toList ++ v ∧ parseBool v = some b := by
  have hspec := splitNameValue_spec name
  unfold parseNamed at h
  split at h
  · cases h
  · split at h
    · split at h <;> cases h
    · rename_i hname
      have hname : (splitNameValue name).1 = "verbose".toList := not_not.mp hname
      rw [hname] at hspec
      split at h
      · rename_i value hv
        rw [hv] at hspec
        split at h
        · rename_i b2 hb
          right
          refine ⟨value, ?_, ?_⟩
          · rw [hspec]; simp
          · cases h; exact hb
        · cases h
      · rename_i hv
        rw [hv] at hspec
        left
        refine ⟨?_, ?_⟩
        · rw [hspec]; simp
        · cases h; rfl

theorem parseNamed_ne_notFlag (s name : GoString) : parseNamed s name ≠ .notFlag := by
  unfold parseNamed
  intro h
  split at h
  · cases h
  · split at h
    · split at h <;> cases h
    · split at h
      · split at h <;> cases h
      · cases h

theorem parseNamed_ne_terminator (s name : GoString) : parseNamed s name ≠ .terminator := by
  unfold parseNamed
  intro h
  split at h
  · cases h
  · split at h
    · split at h <;> cases h
    · split at h
      · split at h <;> cases h
      · cases h

theorem parseBool_eq_spelledBool (s : GoString) : parseBool s = spelledBool s := by
  by_cases h1 : s = "1".toList
  · subst h1; rfl
  by_cases h2 : s = "t".toList
  · subst h2; rfl
  by_cases h3 : s = "T".toList
  · subst h3; rfl
  by_cases h4 : s = "TRUE".toList
  · subst h4; rfl
  by_cases h5 : s = "true".toList
  · subst h5; rfl
  by_cases h6 : s = "True".toList
  · subst h6; rfl
  by_cases h7 : s = "0".toList
  · subst h7; rfl
  by_cases h8 : s = "f".toList
  · subst h8; rfl
  by_cases h9 : s = "F".toList
  · subst h9; rfl
  by_cases h10 : s = "FALSE".toList
  · subst h10; rfl
  by_cases h11 : s = "false".toList
  · subst h11; rfl
  by_cases h12 : s = "False".toList
  · subst h12; rfl
  have hp : parseBool s = none := by
    unfold parseBool
    rw [if_neg, if_neg]
    · intro hm
      simp only [List.map_cons, List.map_nil, List.mem_cons, List.mem_nil_iff, or_false] at hm
      rcases hm with h | h | h | h | h | h
      · exact h7 h
      · exact h8 h
      · exact h9 h
      · exact h10 h
      · exact h11 h
      · exact h12 h
    · intro hm
      simp only [List.map_cons, List.map_nil, List.mem_cons, List.mem_nil_iff, or_false] at hm
      rcases hm with h | h | h | h | h | h
      · exact h1 h
      · exact h2 h
      · exact h3 h
      · exact h4 h
      · exact h5 h
      · exact h6 h
  have hs : spelledBool s = none := by
    unfold spelledBool
    rw [Option.map_eq_none', List.find?_eq_none]
    intro p hp2
    simp only [boolSpellings, List.mem_cons, List.mem_nil_iff, or_false] at hp2
    rcases hp2 with h | h | h | h | h | h | h | h | h | h | h | h <;> subst h <;>
      simp only [decide_eq_true_eq] <;> intro he
    · exact h1 he.symm
    · exact h2 he.symm
    · exact h3 he.symm
    · exact h4 he.symm
    · exact h5 he.symm
    · exact h6 he.symm
    · exact h7 he.symm
    · exact h8 he.symm
    · exact h9 he.symm
    · exact h10 he.symm
    · exact h11 he.symm
    · exact h12 he.symm
  rw [hp, hs]

theorem parseOne_set_spec (s : GoString) (b : Bool) (h : parseOne s = .set b) :
    isFlagToken s = true ∧ verboseTokenValue s = some b := by
  match s with
  | [] => rw [parseOne_nil] at h; cases h
  | [c] => rw [parseOne_single] at h; cases h
  | c :: d :: t =>
    by_cases hc : c = '-'
    · subst hc
      by_cases hd : d = '-'
      · subst hd
        by_cases ht : t = []
        · subst ht; rw [parseOne_terminator] at h; cases h
        · rw [parseOne_double t ht] at h
          rcases parseNamed_set _ _ _ h with ⟨hn, hb⟩ | ⟨v, hn, hb⟩
          · subst hn; subst hb
            exact ⟨by decide, by decide⟩
          · subst hn
            rw [parseBool_eq_spelledBool] at hb
            refine ⟨by simp [isFlagToken], ?_⟩
            simp [verboseTokenValue, hb]
      · rw [parseOne_one d t hd] at h
        rcases parseNamed_set _ _ _ h with ⟨hn, hb⟩ | ⟨v, hn, hb⟩
        · rw [hn]; subst hb
          exact ⟨by decide, by decide⟩
        · rw [hn]
          rw [parseBool_eq_spelledBool] at hb
          refine ⟨by simp [isFlagToken], ?_⟩
          simp [verboseTokenValue, hb]
    · rw [parseOne_not_dash c d t hc] at h; cases h

theorem parseOne_stop_spec (s : GoString)
    (h : parseOne s = .notFlag ∨ parseOne s = .terminator) : isFlagToken s = false := by
  match s with
  | [] => decide
  | [c] => simp [isFlagToken]
  | c :: d :: t =>
    by_cases hc : c = '-'
    · subst hc
      by_cases hd : d = '-'
      · subst hd
        by_cases ht : t = []
        · subst ht; decide
        · rw [parseOne_double t ht] at h
          rcases h with h | h
          · exact absurd h (parseNamed_ne_notFlag _ _)
          · exact absurd h (parseNamed_ne_terminator _ _)
      · rw [parseOne_one d t hd] at h
        rcases h with h | h
        · exact absurd h (parseNamed_ne_notFlag _ _)
        · exact absurd h (parseNamed_ne_terminator _ _)
    · simp [isFlagToken, hc]

theorem Parse_verbose (args : List GoString) :
    ∀ (b v : Bool) (rest : List GoString), Parse b args = .parsed v rest →
      v = (((flagSection args).filterMap verboseTokenValue).getLast?).getD b := by
  induction args with
  | nil =>
    intro b v rest h
    simp only [Parse] at h
    cases h
    simp [flagSection]
  | cons s tl ih =>
    intro b v rest h
    simp only [Parse] at h
    split at h
    · rename_i hs
      cases h
      simp [flagSection, List.takeWhile_cons, parseOne_stop_spec s (Or.inl hs)]
    · rename_i hs
      cases h
      simp [flagSection, List.takeWhile_cons, parseOne_stop_spec s (Or.inr hs)]
    · cases h
    · rename_i b2 hs
      have h2 := ih b2 v rest h
      obtain ⟨hf, hv⟩ := parseOne_set_spec s b2 hs
      rw [h2]
      simp only [flagSection, List.takeWhile_cons, hf, if_true, List.filterMap_cons, hv]
      cases hl : List.filterMap verboseTokenValue (List.takeWhile isFlagToken tl) with
      | nil => simp
      | cons x xs =>
        rw [List.getLast?_cons_cons]
        have hne : (x :: xs).getLast? = some ((x :: xs).getLast (List.cons_ne_nil x xs)) :=
          List.getLast?_eq_getLast _ _
        rw [hne]; rfl

theorem main_of_parsed {App : Type} (NewApp : Bool → App) (Run : App → Option GoString)
    (args : List GoString) (v : Bool) (rest : List GoString)
    (h : Parse false args = .parsed v rest) :
    main NewApp Run args =
      [.flagBool "verbose".toList false, .flagParse args, .newApp v, .run (NewApp v)] ++
        (match Run (NewApp v) with
          | some err => [.logPrint err, .exit 1]
          | none => [.exit 0]) := by
  simp only [main, h, logFatal]
  rfl

theorem main_of_failed {App : Type} (NewApp : Bool → App) (Run : App → Option GoString)
    (args : List GoString) (err : FlagError) (h : Parse false args = .failed err) :
    main NewApp Run args =
      [.flagBool "verbose".toList false, .flagUsage err, .exit (exitOnError err)] := by
  simp only [main, h]
  rfl

theorem verboseOnCommandLine_absent (args : List GoString)
    (h : ∀ s ∈ args, verboseTokenValue s = none) : verboseOnCommandLine args = false := by
  have hnil : (flagSection args).filterMap verboseTokenValue = [] := by
    rw [List.filterMap_eq_nil_iff]
    intro s hs
    exact h s ((List.takeWhile_sublist _).subset hs)
  simp [verboseOnCommandLine, hnil]

/-- C1: on a command line the flag parser accepts, the process ends with status 1
when `Run` returned an error and with status 0 when it returned nil, so the
status is 0 exactly when `Run` succeeded. -/
theorem main_exit_code_follows_run {App : Type} (NewApp : Bool → App)
    (Run : App → Option GoString) (args : List GoString) (v : Bool) (rest : List GoString)
    (h : Parse false args = .parsed v rest) :
    (∀ err, Run (NewApp v) = some err → exitCode (main NewApp Run args) = some 1) ∧
    (Run (NewApp v) = none → exitCode (main NewApp Run args) = some 0) ∧
    (exitCode (main NewApp Run args) = some 0 ↔ Run (NewApp v) = none) := by
  rw [main_of_parsed NewApp Run args v rest h]
  cases hr : Run (NewApp v) with
  | none => simp [exitCode]
  | some e => simp [exitCode]

theorem main_exit_code_follows_run_witness :
    Parse false ["-verbose".toList] = .parsed true [] ∧
    ((∀ err, (fun b : Bool => if b then some "cycle".toList else none) (id true) = some err →
        exitCode (main id (fun b : Bool => if b then some "cycle".toList else none)
          ["-verbose".toList]) = some 1) ∧
     ((fun b : Bool => if b then some "cycle".toList else none) (id true) = none →
        exitCode (main id (fun b : Bool => if b then some "cycle".toList else none)
          ["-verbose".toList]) = some 0) ∧
     (exitCode (main id (fun b : Bool => if b then some "cycle".toList else none)
          ["-verbose".toList]) = some 0 ↔
        (fun b : Bool => if b then some "cycle".toList else none) (id true) = none)) :=
  ⟨by decide, main_exit_code_follows_run id
    (fun b : Bool => if b then some "cycle".toList else none) ["-verbose".toList] true []
    (by decide)⟩

/-- C2: on a command line the flag parser accepts, `main` writes a log message
exactly when `Run` returned an error; the message is the text of that error and
it is written right before the process ends with status 1, nothing having been
logged and no exit having happened earlier. -/
theorem main_logs_exactly_the_run_error {App : Type} (NewApp : Bool → App)
    (Run : App → Option GoString) (args : List GoString) (v : Bool) (rest : List GoString)
    (h : Parse false args = .parsed v rest) :
    logged (main NewApp Run args) = (Run (NewApp v)).toList ∧
    (Run (NewApp v) = none → logged (main NewApp Run args) = []) ∧
    (∀ err, Run (NewApp v) = some err →
      ∃ before, main NewApp Run args = before ++ [.logPrint err, .exit 1] ∧
        logged before = [] ∧ exitCode before = none) := by
  rw [main_of_parsed NewApp Run args v rest h]
  cases hr : Run (NewApp v) with
  | none => simp [logged]
  | some e =>
    refine ⟨by simp [logged], by simp, ?_⟩
    intro err herr
    cases herr
    exact ⟨_, rfl, by simp [logged], by simp [exitCode]⟩

theorem main_logs_exactly_the_run_error_witness :
    Parse false ["-verbose".toList] = .parsed true [] ∧
    logged (main id (fun b : Bool => if b then some "cycle".toList else none)
      ["-verbose".toList]) = ["cycle".toList] :=
  ⟨by decide, by
    have h := (main_logs_exactly_the_run_error id
      (fun b : Bool => if b then some "cycle".toList else none) ["-verbose".toList] true []
      (by decide)).1
    simpa using h⟩

/-- C3: on a command line the flag parser accepts, `NewApp` receives the value of
the `-verbose` flag on that command line, each given value read by the table of
boolean spellings, and it receives false when no argument gives that flag. -/
theorem main_passes_verbose_flag {App : Type} (NewApp : Bool → App)
    (Run : App → Option GoString) (args : List GoString) (h : Accepted args) :
    newAppCalls (main NewApp Run args) = [verboseOnCommandLine args] ∧
    ((∀ s ∈ args, verboseTokenValue s = none) →
      newAppCalls (main NewApp Run args) = [false]) := by
  obtain ⟨v, rest, hp⟩ := h
  have hv : v = verboseOnCommandLine args := Parse_verbose args false v rest hp
  have hcalls : newAppCalls (main NewApp Run args) = [v] := by
    rw [main_of_parsed NewApp Run args v rest hp]
    cases hr : Run (NewApp v) <;> simp [newAppCalls]
  refine ⟨by rw [hcalls, hv], ?_⟩
  intro habs
  rw [hcalls, hv, verboseOnCommandLine_absent args habs]

theorem main_passes_verbose_flag_witness :
    (Accepted ["-verbose".toList, "-verbose=T".toList, "--verbose=false".toList, "in".toList] ∧
      newAppCalls (main id (fun _ : Bool => none)
        ["-verbose".toList, "-verbose=T".toList, "--verbose=false".toList, "in".toList]) =
        [false]) ∧
    (Accepted ["--verbose=0".toList, "-verbose=1".toList] ∧
      newAppCalls (main id (fun _ : Bool => none)
        ["--verbose=0".toList, "-verbose=1".toList]) = [true]) ∧
    (Accepted ["in".toList, "-verbose".toList] ∧
      newAppCalls (main id (fun _ : Bool => none) ["in".toList, "-verbose".toList]) =
        [false]) :=
  ⟨⟨by decide, (main_passes_verbose_flag id (fun _ : Bool => none)
      ["-verbose".toList, "-verbose=T".toList, "--verbose=false".toList, "in".toList]
      (by decide)).1.trans (by decide)⟩,
    ⟨by decide, (main_passes_verbose_flag id (fun _ : Bool => none)
      ["--verbose=0".toList, "-verbose=1".toList] (by decide)).1.trans (by decide)⟩,
    ⟨by decide, (main_passes_verbose_flag id (fun _ : Bool => none)
      ["in".toList, "-verbose".toList] (by decide)).1.trans (by decide)⟩⟩

/-- C7, as stated, fails: the command line `-bogus` names a flag that is not
defined, the flag package ends the process itself, and the status is 2, which
is neither 0 nor 1. -/
theorem main_exit_code_two_on_undefined_flag :
    exitCode (main id (fun _ : Bool => (none : Option GoString)) ["-bogus".toList]) = some 2 ∧
    ¬ ∀ args : List GoString,
        exitCode (main id (fun _ : Bool => (none : Option GoString)) args) = some 0 ∨
        exitCode (main id (fun _ : Bool => (none : Option GoString)) args) = some 1 := by
  refine ⟨by decide, ?_⟩
  intro hall
  have h := hall ["-bogus".toList]
  revert h
  decide

/-- C7, amended: for every command line the process ends with exactly one
status, which is 2 when the flag parser rejects the command line, 0 when the
command line asks for help, and otherwise 0 when `Run` returned nil and 1 when
it returned an error; so the status is always 0, 1 or 2. -/
theorem main_exit_code_total {App : Type} (NewApp : Bool → App)
    (Run : App → Option GoString) (args : List GoString) :
    exitCode (main NewApp Run args) = some
      (match Parse false args with
        | .failed .errHelp => 0
        | .failed _ => 2
        | .parsed v _ => if (Run (NewApp v)).isSome then 1 else 0) ∧
    (exitCode (main NewApp Run args) = some 0 ∨
      exitCode (main NewApp Run args) = some 1 ∨
      exitCode (main NewApp Run args) = some 2) := by
  cases hp : Parse false args with
  | failed err =>
    rw [main_of_failed NewApp Run args err hp]
    cases err <;> simp [exitCode, exitOnError]
  | parsed v rest =>
    rw [main_of_parsed NewApp Run args v rest hp]
    cases hr : Run (NewApp v) <;> simp [exitCode, hr]

/-- C8: on a command line the flag parser accepts, the run of `main` is: the flag
is registered, parsing finishes, `NewApp` is called, `Run` is called on the app
`NewApp` returned, and what follows holds no further call of either; so each is
called exactly once, `NewApp` after parsing, and `Run` is not tried again after
an error. -/
theorem main_calls_newApp_and_run_once {App : Type} (NewApp : Bool → App)
    (Run : App → Option GoString) (args : List GoString) (v : Bool) (rest : List GoString)
    (h : Parse false args = .parsed v rest) :
    (∃ after, main NewApp Run args =
        [.flagBool "verbose".toList false, .flagParse args, .newApp v, .run (NewApp v)] ++ after ∧
        newAppCalls after = [] ∧ runCalls after = []) ∧
    (newAppCalls (main NewApp Run args)).length = 1 ∧
    runCalls (main NewApp Run args) = [NewApp v] := by
  rw [main_of_parsed NewApp Run args v rest h]
  cases hr : Run (NewApp v) with
  | none => exact ⟨⟨_, rfl, by simp [newAppCalls], by simp [runCalls]⟩,
      by simp [newAppCalls], by simp [runCalls]⟩
  | some e => exact ⟨⟨_, rfl, by simp [newAppCalls], by simp [runCalls]⟩,
      by simp [newAppCalls], by simp [runCalls]⟩

theorem main_calls_newApp_and_run_once_witness :
    Parse false ["-verbose=1".toList] = .parsed true [] ∧
    runCalls (main (fun b : Bool => (b, 7)) (fun _ => some "node failed".toList)
      ["-verbose=1".toList]) = [(true, 7)] :=
  ⟨by decide, (main_calls_newApp_and_run_once (fun b : Bool => (b, 7))
    (fun _ => some "node failed".toList) ["-verbose=1".toList] true [] (by decide)).2.2⟩

/-! ## Part 2: theorems about chain resolution -/

theorem foldl_decrement (L : List (NodeRef × NodeRef)) :
    ∀ (inDeg : NodeRef → Nat) (v : NodeRef),
      (L.foldl (fun d e => decrement d e.2) inDeg) v =
        inDeg v - (L.filter fun e => e.2 = v).length := by
  induction L with
  | nil => intro inDeg v; simp
  | cons e L ih =>
    intro inDeg v
    rw [List.foldl_cons, ih]
    by_cases he : e.2 = v
    · have hv : v = e.2 := he.symm
      simp only [decrement, hv, if_true, List.filter_cons, decide_True, List.length_cons]
      omega
    · have hv : ¬ v = e.2 := fun h => he h.symm
      simp [decrement, hv, List.filter_cons, he]

theorem length_edges_into (E : List (NodeRef × NodeRef)) (R : List NodeRef) (v : NodeRef) :
    ((E.filter fun e => e.1 ∈ R).filter fun e => e.2 = v).length =
      ((dependencies E v).filter fun d => d ∈ R).length := by
  induction E with
  | nil => simp [dependencies]
  | cons e E ih =>
    simp only [dependencies] at ih ⊢
    by_cases h1 : e.1 ∈ R <;> by_cases h2 : e.2 = v <;>
      simp only [List.filter_cons, h1, h2, decide_True, decide_False, if_true, if_false,
        List.map_cons, List.length_cons, ih, Bool.false_eq_true]

theorem length_unresolved_split (D A R L : List NodeRef)
    (hRA : ∀ d ∈ R, d ∉ A) (hL : ∀ d, d ∈ L ↔ d ∈ R) :
    (D.filter fun d => d ∉ A).length =
      (D.filter fun d => d ∉ A ++ L).length + (D.filter fun d => d ∈ R).length := by
  induction D with
  | nil => simp
  | cons d D ih =>
    by_cases h1 : d ∈ A
    · have h2 : d ∉ R := fun h => hRA d h h1
      have h3 : d ∈ A ++ L := List.mem_append.mpr (Or.inl h1)
      simp only [List.filter_cons, h1, h2, h3, not_true_eq_false, decide_False, if_false,
        Bool.false_eq_true, ih]
    · by_cases h2 : d ∈ R
      · have h3 : d ∈ A ++ L := List.mem_append.mpr (Or.inr ((hL d).mpr h2))
        simp only [List.filter_cons, h1, h2, h3, not_true_eq_false, not_false_eq_true,
          decide_True, decide_False, if_true, if_false, Bool.false_eq_true, List.length_cons, ih]
        omega
      · have h3 : d ∉ A ++ L := by
          rw [List.mem_append, hL]; exact fun h => h.elim h1 h2
        simp only [List.filter_cons, h1, h2, h3, not_false_eq_true,
          decide_True, decide_False, if_true, if_false, Bool.false_eq_true, List.length_cons, ih]
        omega

theorem mem_insertionSort_refLe (R : List NodeRef) (v : NodeRef) :
    v ∈ R.insertionSort refLe ↔ v ∈ R :=
  (List.perm_insertionSort refLe R).mem_iff

theorem kahnLevels_earliest (E : List (NodeRef × NodeRef)) (V : List NodeRef) :
    ∀ (fuel : Nat) (inDeg : NodeRef → Nat) (U A : List NodeRef) (plan : ExecutionPlan),
      U.Nodup →
      (∀ v, v ∈ U ↔ v ∈ V ∧ v ∉ A) →
      (∀ v, inDeg v = ((dependencies E v).filter fun d => d ∉ A).length) →
      kahnLevels E fuel inDeg U = .ok plan →
      EarliestLevels E V A plan := by
  intro fuel
  induction fuel with
  | zero => intro inDeg U A plan _ _ _ h; simp [kahnLevels] at h
  | succ fuel ih =>
    intro inDeg U A plan hnd hU hD h
    simp only [kahnLevels] at h
    have hready : ∀ v, v ∈ (U.filter fun v => inDeg v = 0) ↔
        v ∈ V ∧ v ∉ A ∧ ∀ d ∈ dependencies E v, d ∈ A := by
      intro v
      rw [List.mem_filter, hU, hD v]
      simp only [decide_eq_true_eq, List.length_eq_zero, List.filter_eq_nil_iff, and_assoc]
      simp
    split at h
    · rename_i hempty
      split at h
      · cases h
        intro v hv
        by_contra hA
        have : v ∈ ([] : List NodeRef) := (hU v).mpr ⟨hv, hA⟩
        simp at this
      · cases h
    · rename_i hne
      split at h
      · rename_i levels hrec
        cases h
        refine ⟨?_, ?_, ?_, ?_⟩
        · intro hnil
          apply hne
          have := (List.perm_insertionSort refLe (U.filter fun v => inDeg v = 0)).length_eq
          rw [hnil] at this
          exact List.length_eq_zero.mp this.symm
        · exact (List.perm_insertionSort refLe _).nodup_iff.mpr (hnd.filter _)
        · intro v
          rw [mem_insertionSort_refLe]
          exact hready v
        · apply ih _ _ _ _ (hnd.filter _) _ _ hrec
          · intro v
            rw [List.mem_filter, hU, List.mem_append, mem_insertionSort_refLe]
            simp only [decide_eq_true_eq, not_or, and_assoc]
          · intro v
            rw [foldl_decrement, length_edges_into, hD v]
            have hsplit := length_unresolved_split (dependencies E v) A
              (U.filter fun v => inDeg v = 0)
              ((U.filter fun v => inDeg v = 0).insertionSort refLe)
              (fun d hd => ((hready d).mp hd).2.1)
              (fun d => mem_insertionSort_refLe _ d)
            omega
      · cases h

theorem kahnLevels_fuel (E : List (NodeRef × NodeRef)) :
    ∀ (fuel : Nat) (inDeg : NodeRef → Nat) (U : List NodeRef),
      U.length < fuel → kahnLevels E fuel inDeg U ≠ .error .iterationBound := by
  intro fuel
  induction fuel with
  | zero => intro inDeg U h; omega
  | succ fuel ih =>
    intro inDeg U hlen h
    simp only [kahnLevels] at h
    split at h
    · split at h <;> cases h
    · rename_i hne
      split at h
      · cases h
      · rename_i err hrec
        cases h
        refine ih _ _ ?_ hrec
        have hlt : (U.filter fun v => v ∉ U.filter fun v => inDeg v = 0).length < U.length := by
          rw [List.length_filter_lt_length_iff_exists]
          obtain ⟨x, hx⟩ := List.exists_mem_of_ne_nil _ hne
          exact ⟨x, (List.mem_filter.mp hx).1, by simpa using hx⟩
        omega

theorem resolve_earliest (graphs : List Graph) (links : ChainLinkTable) (plan : ExecutionPlan)
    (h : resolve graphs links = .ok plan) :
    EarliestLevels (edges graphs links) (vertices graphs) [] plan := by
  unfold resolve at h
  split at h
  · cases h
  · refine kahnLevels_earliest _ _ _ _ _ [] plan ?_ ?_ ?_ h
    · exact List.nodup_dedup _
    · intro v; simp
    · intro v; simp [inDegree]

theorem levelOf_cons_mem (level : List NodeRef) (rest : ExecutionPlan) (v : NodeRef)
    (h : v ∈ level) : levelOf (level :: rest) v = some 0 := by
  simp [levelOf, h]

theorem levelOf_cons_not_mem (level : List NodeRef) (rest : ExecutionPlan) (v : NodeRef)
    (h : v ∉ level) : levelOf (level :: rest) v = (levelOf rest v).map (· + 1) := by
  simp [levelOf, h]

theorem earliest_levelOf (E : List (NodeRef × NodeRef)) (V : List NodeRef) :
    ∀ (plan : ExecutionPlan) (A : List NodeRef), EarliestLevels E V A plan →
      (∀ v ∈ V, v ∈ A ∨ ∃ k, levelOf plan v = some k) ∧
      (∀ v k, levelOf plan v = some k → v ∈ V ∧ v ∉ A ∧
        (∀ d ∈ dependencies E v, d ∈ A ∨ ∃ j, j < k ∧ levelOf plan d = some j) ∧
        (k = 0 → ∀ d ∈ dependencies E v, d ∈ A) ∧
        (0 < k → ∃ d ∈ dependencies E v, levelOf plan d = some (k - 1))) := by
  intro plan
  induction plan with
  | nil =>
    intro A h
    exact ⟨fun v hv => Or.inl (h v hv), fun v k hk => by simp [levelOf] at hk⟩
  | cons L rest ih =>
    intro A h
    obtain ⟨_, _, hL, hrest⟩ := h
    obtain ⟨ih1, ih2⟩ := ih (A ++ L) hrest
    refine ⟨?_, ?_⟩
    · intro v hv
      by_cases hvL : v ∈ L
      · exact Or.inr ⟨0, levelOf_cons_mem L rest v hvL⟩
      · rcases ih1 v hv with hA | ⟨k, hk⟩
        · rcases List.mem_append.mp hA with hA | hA
          · exact Or.inl hA
          · exact absurd hA hvL
        · exact Or.inr ⟨k + 1, by rw [levelOf_cons_not_mem L rest v hvL, hk]; rfl⟩
    · intro v k hk
      by_cases hvL : v ∈ L
      · rw [levelOf_cons_mem L rest v hvL] at hk
        have hk0 : k = 0 := (Option.some.inj hk).symm
        subst hk0
        obtain ⟨hV, hA, hd⟩ := (hL v).mp hvL
        exact ⟨hV, hA, fun d hdm => Or.inl (hd d hdm), fun _ => hd,
          fun h0 => absurd h0 (Nat.lt_irrefl 0)⟩
      · rw [levelOf_cons_not_mem L rest v hvL] at hk
        cases hr : levelOf rest v with
        | none => rw [hr] at hk; cases hk
        | some k2 =>
          rw [hr] at hk
          have hkk : k = k2 + 1 := (Option.some.inj hk).symm
          subst hkk
          obtain ⟨hV, hAL, hdeps, hzero, hpos⟩ := ih2 v k2 hr
          have hA : v ∉ A := fun hm => hAL (List.mem_append.mpr (Or.inl hm))
          refine ⟨hV, hA, ?_, fun h0 => absurd h0 (Nat.succ_ne_zero k2), fun _ => ?_⟩
          · intro d hdm
            by_cases hdL : d ∈ L
            · exact Or.inr ⟨0, by omega, levelOf_cons_mem L rest d hdL⟩
            · rcases hdeps d hdm with hm | ⟨j, hj, hjl⟩
              · rcases List.mem_append.mp hm with hm | hm
                · exact Or.inl hm
                · exact absurd hm hdL
              · exact Or.inr ⟨j + 1, by omega,
                  by rw [levelOf_cons_not_mem L rest d hdL, hjl]; rfl⟩
          · rcases Nat.eq_zero_or_pos k2 with hk0 | hkpos
            · subst hk0
              have hall := hzero rfl
              have hex : ∃ d ∈ dependencies E v, d ∉ A := by
                by_contra hcon
                push_neg at hcon
                exact hvL ((hL v).mpr ⟨hV, hA, hcon⟩)
              obtain ⟨d, hdm, hdA⟩ := hex
              have hdL : d ∈ L := by
                rcases List.mem_append.mp (hall d hdm) with hm | hm
                · exact absurd hm hdA
                · exact hm
              exact ⟨d, hdm, levelOf_cons_mem L rest d hdL⟩
            · obtain ⟨d, hdm, hdl⟩ := hpos hkpos
              have hdL : d ∉ L := fun hm =>
                (ih2 d (k2 - 1) hdl).2.1 (List.mem_append.mpr (Or.inr hm))
              refine ⟨d, hdm, ?_⟩
              rw [levelOf_cons_not_mem L rest d hdL, hdl]
              simp only [Option.map_some', Nat.add_sub_cancel]
              congr 1
              omega

theorem latestLevel_eq (plan : ExecutionPlan) (m : Nat) :
    ∀ ds : List NodeRef,
      (∀ d ∈ ds, ∃ j, levelOf plan d = some j ∧ j ≤ m) →
      (∃ d ∈ ds, levelOf plan d = some m) → latestLevel plan ds = m := by
  intro ds
  induction ds with
  | nil => intro _ h; obtain ⟨d, hd, _⟩ := h; simp at hd
  | cons d ds ih =>
    intro hall hex
    obtain ⟨j, hj, hjm⟩ := hall d (List.mem_cons_self d ds)
    have hall2 : ∀ x ∈ ds, ∃ j, levelOf plan x = some j ∧ j ≤ m :=
      fun x hx => hall x (List.mem_cons_of_mem d hx)
    have hle : latestLevel plan ds ≤ m := by
      clear ih hex hall
      induction ds with
      | nil => simp [latestLevel]
      | cons x xs ihx =>
        obtain ⟨i, hi, him⟩ := hall2 x (List.mem_cons_self x xs)
        have := ihx (fun y hy => hall2 y (List.mem_cons_of_mem x hy))
        simp only [latestLevel, List.filterMap_cons, hi, List.foldr_cons] at this ⊢
        exact max_le him this
    simp only [latestLevel, List.filterMap_cons, hj, List.foldr_cons] at hle ⊢
    obtain ⟨x, hx, hxl⟩ := hex
    rcases List.mem_cons.mp hx with hxd | hxds
    · subst hxd
      rw [hj] at hxl
      cases hxl
      exact max_eq_left hle
    · have := ih hall2 ⟨x, hxds, hxl⟩
      simp only [latestLevel] at this
      rw [this]
      exact max_eq_right hjm

theorem resolve_levelOf (graphs : List Graph) (links : ChainLinkTable) (plan : ExecutionPlan)
    (h : resolve graphs links = .ok plan) :
    (∀ v ∈ vertices graphs, ∃ k, levelOf plan v = some k) ∧
    (∀ v k, levelOf plan v = some k → v ∈ vertices graphs ∧
      (∀ d ∈ dependencies (edges graphs links) v, ∃ j, j < k ∧ levelOf plan d = some j) ∧
      (0 < k → ∃ d ∈ dependencies (edges graphs links) v, levelOf plan d = some (k - 1))) := by
  obtain ⟨h1, h2⟩ := earliest_levelOf _ _ plan [] (resolve_earliest graphs links plan h)
  refine ⟨?_, ?_⟩
  · intro v hv
    rcases h1 v hv with hA | hk
    · simp at hA
    · exact hk
  · intro v k hk
    obtain ⟨hV, _, hdeps, _, hpos⟩ := h2 v k hk
    refine ⟨hV, ?_, hpos⟩
    intro d hd
    rcases hdeps d hd with hA | hj
    · simp at hA
    · exact hj

/-- C4: when the Chain Resolver succeeds, every node of the graphs has a level in
the plan, each of its intra-graph and cross-graph dependencies has a strictly
earlier level, and its level is the earliest possible: 0 when it has no
dependency, and otherwise one more than the largest level among its
dependencies. -/
theorem resolve_places_nodes_in_earliest_level (graphs : List Graph) (links : ChainLinkTable)
    (plan : ExecutionPlan) (h : resolve graphs links = .ok plan) :
    ∀ v ∈ vertices graphs, ∃ k, levelOf plan v = some k ∧
      (∀ d ∈ dependencies (edges graphs links) v, ∃ j, levelOf plan d = some j ∧ j < k) ∧
      k = (if dependencies (edges graphs links) v = [] then 0
           else latestLevel plan (dependencies (edges graphs links) v) + 1) := by
  obtain ⟨h1, h2⟩ := resolve_levelOf graphs links plan h
  intro v hv
  obtain ⟨k, hk⟩ := h1 v hv
  obtain ⟨_, hdeps, hpos⟩ := h2 v k hk
  refine ⟨k, hk, ?_, ?_⟩
  · intro d hd
    obtain ⟨j, hj, hjl⟩ := hdeps d hd
    exact ⟨j, hjl, hj⟩
  · by_cases hnil : dependencies (edges graphs links) v = []
    · rw [if_pos hnil]
      rcases Nat.eq_zero_or_pos k with h0 | hp
      · exact h0
      · obtain ⟨d, hd, _⟩ := hpos hp
        rw [hnil] at hd
        simp at hd
    · rw [if_neg hnil]
      obtain ⟨d0, hd0⟩ := List.exists_mem_of_ne_nil _ hnil
      obtain ⟨j0, hj0, _⟩ := hdeps d0 hd0
      have hp : 0 < k := by omega
      have hm := latestLevel_eq plan (k - 1) (dependencies (edges graphs links) v)
        (fun d hd => by
          obtain ⟨j, hj, hjl⟩ := hdeps d hd
          exact ⟨j, hjl, by omega⟩)
        (hpos hp)
      omega

theorem resolve_places_nodes_in_earliest_level_witness :
    resolve
        [⟨1, [⟨1, []⟩, ⟨2, [1]⟩, ⟨3, [1]⟩, ⟨4, [2, 3]⟩]⟩, ⟨2, [⟨1, []⟩, ⟨2, [1]⟩]⟩]
        [⟨(1, 4), (2, 2)⟩, ⟨(2, 1), (1, 3)⟩] =
      .ok [[(1, 1), (2, 1)], [(1, 2), (1, 3)], [(1, 4)], [(2, 2)]] ∧
    ∀ v ∈ vertices
        [⟨1, [⟨1, []⟩, ⟨2, [1]⟩, ⟨3, [1]⟩, ⟨4, [2, 3]⟩]⟩, ⟨2, [⟨1, []⟩, ⟨2, [1]⟩]⟩],
      ∃ k, levelOf [[(1, 1), (2, 1)], [(1, 2), (1, 3)], [(1, 4)], [(2, 2)]] v = some k ∧
        (∀ d ∈ dependencies (edges
            [⟨1, [⟨1, []⟩, ⟨2, [1]⟩, ⟨3, [1]⟩, ⟨4, [2, 3]⟩]⟩, ⟨2, [⟨1, []⟩, ⟨2, [1]⟩]⟩]
            [⟨(1, 4), (2, 2)⟩, ⟨(2, 1), (1, 3)⟩]) v,
          ∃ j, levelOf [[(1, 1), (2, 1)], [(1, 2), (1, 3)], [(1, 4)], [(2, 2)]] d = some j ∧
            j < k) ∧
        k = (if dependencies (edges
            [⟨1, [⟨1, []⟩, ⟨2, [1]⟩, ⟨3, [1]⟩, ⟨4, [2, 3]⟩]⟩, ⟨2, [⟨1, []⟩, ⟨2, [1]⟩]⟩]
            [⟨(1, 4), (2, 2)⟩, ⟨(2, 1), (1, 3)⟩]) v = [] then 0
          else latestLevel [[(1, 1), (2, 1)], [(1, 2), (1, 3)], [(1, 4)], [(2, 2)]]
            (dependencies (edges
              [⟨1, [⟨1, []⟩, ⟨2, [1]⟩, ⟨3, [1]⟩, ⟨4, [2, 3]⟩]⟩, ⟨2, [⟨1, []⟩, ⟨2, [1]⟩]⟩]
              [⟨(1, 4), (2, 2)⟩, ⟨(2, 1), (1, 3)⟩]) v) + 1) :=
  ⟨rfl, resolve_places_nodes_in_earliest_level _ _ _ rfl⟩

theorem edge_target_mem_vertices (graphs : List Graph) (links : ChainLinkTable)
    (hlinks : ∀ l ∈ links, l.source ∈ vertices graphs ∧ l.target ∈ vertices graphs)
    (e : NodeRef × NodeRef) (he : e ∈ edges graphs links) : e.2 ∈ vertices graphs := by
  simp only [edges, List.mem_dedup, List.mem_append] at he
  rcases he with he | he
  · simp only [internalEdges, List.mem_flatMap, List.mem_map] at he
    obtain ⟨g, hg, n, hn, p, _, hp⟩ := he
    subst hp
    simp only [vertices, List.mem_dedup, List.mem_flatMap, List.mem_map]
    exact ⟨g, hg, n, hn, rfl⟩
  · simp only [linkEdges, List.mem_map] at he
    obtain ⟨l, hl, hle⟩ := he
    subst hle
    exact (hlinks l hl).2

theorem mem_dependencies (E : List (NodeRef × NodeRef)) (d v : NodeRef) :
    d ∈ dependencies E v ↔ (d, v) ∈ E := by
  simp only [dependencies, List.mem_map, List.mem_filter, decide_eq_true_eq]
  constructor
  · rintro ⟨e, ⟨he, hv⟩, hd⟩
    have : e = (d, v) := Prod.ext hd hv
    exact this ▸ he
  · intro h
    exact ⟨(d, v), ⟨h, rfl⟩, rfl⟩

theorem resolve_ok_no_cycle (graphs : List Graph) (links : ChainLinkTable)
    (plan : ExecutionPlan) (c : List NodeRef)
    (hlinks : ∀ l ∈ links, l.source ∈ vertices graphs ∧ l.target ∈ vertices graphs)
    (h : resolve graphs links = .ok plan) : ¬ IsCycle (edges graphs links) c := by
  rintro ⟨hne, hcyc⟩
  obtain ⟨h1, h2⟩ := resolve_levelOf graphs links plan h
  have hn : 0 < c.length := List.length_pos.mpr hne
  have hstep : ∀ i, i < c.length →
      ∃ j k, levelOf plan (c.getD i (0, 0)) = some j ∧
        levelOf plan (c.getD ((i + 1) % c.length) (0, 0)) = some k ∧ j < k := by
    intro i hi
    have he := hcyc i hi
    have ht := edge_target_mem_vertices graphs links hlinks _ he
    obtain ⟨k, hk⟩ := h1 _ ht
    obtain ⟨j, hj, hjl⟩ := (h2 _ k hk).2.1 _ ((mem_dependencies _ _ _).mpr he)
    exact ⟨j, k, hjl, hk, hj⟩
  have hgrow : ∀ m, ∃ j0 jm, levelOf plan (c.getD 0 (0, 0)) = some j0 ∧
      levelOf plan (c.getD (m % c.length) (0, 0)) = some jm ∧ j0 + m ≤ jm := by
    intro m
    induction m with
    | zero =>
      obtain ⟨j, _, hj, _, _⟩ := hstep 0 hn
      exact ⟨j, j, hj, by simpa using hj, by omega⟩
    | succ m ih =>
      obtain ⟨j0, jm, h0, hm, hle⟩ := ih
      obtain ⟨j, k, hj, hk, hjk⟩ := hstep (m % c.length) (Nat.mod_lt _ hn)
      rw [Nat.mod_add_mod] at hk
      rw [hm] at hj
      cases hj
      exact ⟨j0, k, h0, hk, by omega⟩
  obtain ⟨j0, jm, h0, hm, hle⟩ := hgrow c.length
  rw [Nat.mod_self, h0] at hm
  cases hm
  omega

theorem kahnLevels_not_unknownNode (E : List (NodeRef × NodeRef)) :
    ∀ (fuel : Nat) (inDeg : NodeRef → Nat) (U : List NodeRef) (l : ChainLink),
      kahnLevels E fuel inDeg U ≠ .error (.unknownNodeError l) := by
  intro fuel
  induction fuel with
  | zero => intro inDeg U l h; simp [kahnLevels] at h
  | succ fuel ih =>
    intro inDeg U l h
    simp only [kahnLevels] at h
    split at h
    · split at h <;> cases h
    · split at h
      · cases h
      · rename_i err hrec
        cases h
        exact ih _ _ l hrec

theorem resolve_within_bound (graphs : List Graph) (links : ChainLinkTable) :
    resolve graphs links ≠ .error .iterationBound := by
  intro hr
  unfold resolve at hr
  split at hr
  · cases hr
  · exact kahnLevels_fuel _ _ _ _ (Nat.lt_succ_self _) hr

/-- C5: when every link joins nodes of the graphs and the merged dependency edges
hold a cycle, as when cross-graph links close one over graphs that are acyclic
on their own, resolution ends with `CycleError`; it returns no plan at all. -/
theorem resolve_cycle_gives_cycleError (graphs : List Graph) (links : ChainLinkTable)
    (c : List NodeRef)
    (hlinks : ∀ l ∈ links, l.source ∈ vertices graphs ∧ l.target ∈ vertices graphs)
    (hc : IsCycle (edges graphs links) c) :
    (∃ path, resolve graphs links = .error (.cycleError path)) ∧
    ∀ plan, resolve graphs links ≠ .ok plan := by
  have hno : ∀ plan, resolve graphs links ≠ .ok plan :=
    fun plan h => resolve_ok_no_cycle graphs links plan c hlinks h hc
  refine ⟨?_, hno⟩
  cases hr : resolve graphs links with
  | ok plan => exact absurd hr (hno plan)
  | error err =>
    cases err with
    | cycleError path => exact ⟨path, rfl⟩
    | unknownNodeError l =>
      exfalso
      unfold resolve at hr
      split at hr
      · rename_i l2 hfind
        have hmem := List.mem_of_find?_eq_some hfind
        have hprop := List.find?_some hfind
        have := hlinks l2 hmem
        simp [this.1, this.2] at hprop
      · exact kahnLevels_not_unknownNode _ _ _ _ l hr
    | iterationBound => exact absurd hr (resolve_within_bound graphs links)

theorem resolve_cycle_gives_cycleError_witness :
    (∀ l ∈ ([⟨(1, 1), (2, 1)⟩, ⟨(2, 1), (1, 1)⟩] : ChainLinkTable),
      l.source ∈ vertices [⟨1, [⟨1, []⟩]⟩, ⟨2, [⟨1, []⟩]⟩] ∧
      l.target ∈ vertices [⟨1, [⟨1, []⟩]⟩, ⟨2, [⟨1, []⟩]⟩]) ∧
    IsCycle (edges [⟨1, [⟨1, []⟩]⟩, ⟨2, [⟨1, []⟩]⟩] [⟨(1, 1), (2, 1)⟩, ⟨(2, 1), (1, 1)⟩])
      [(1, 1), (2, 1)] ∧
    ((∃ path, resolve [⟨1, [⟨1, []⟩]⟩, ⟨2, [⟨1, []⟩]⟩]
        [⟨(1, 1), (2, 1)⟩, ⟨(2, 1), (1, 1)⟩] = .error (.cycleError path)) ∧
      ∀ plan, resolve [⟨1, [⟨1, []⟩]⟩, ⟨2, [⟨1, []⟩]⟩]
        [⟨(1, 1), (2, 1)⟩, ⟨(2, 1), (1, 1)⟩] ≠ .ok plan) :=
  ⟨by decide, by decide,
    resolve_cycle_gives_cycleError [⟨1, [⟨1, []⟩]⟩, ⟨2, [⟨1, []⟩]⟩]
      [⟨(1, 1), (2, 1)⟩, ⟨(2, 1), (1, 1)⟩] [(1, 1), (2, 1)] (by decide) (by decide)⟩

/-! ## Part 2: theorems about the executor -/

theorem stepNode_spec (E : List (NodeRef × NodeRef)) (act : ActionInvoker) (halted : Bool)
    (st : ExecState) (v : NodeRef)
    (hpend : st.state v = .pending) (hinv : v ∉ st.invoked)
    (hfail : ∀ u, st.state u = .failed → u ∈ st.failures) :
    (∀ u, u ≠ v → (stepNode E act halted st v).state u = st.state u) ∧
    (∀ u, u ≠ v → u ∈ (stepNode E act halted st v).invoked → u ∈ st.invoked) ∧
    ((∃ d ∈ dependencies E v, st.state d = .failed ∨ st.state d = .skipped) →
      (stepNode E act halted st v).state v = .skipped ∧
        v ∉ (stepNode E act halted st v).invoked) ∧
    (∀ u, (stepNode E act halted st v).state u = .failed →
      u ∈ (stepNode E act halted st v).failures) := by
  unfold stepNode
  rw [if_neg (not_not.mpr hpend)]
  by_cases hany : (dependencies E v).any
      (fun d => decide (st.state d = .failed) || decide (st.state d = .skipped)) = true
  · rw [if_pos hany]
    refine ⟨?_, ?_, ?_, ?_⟩
    · intro u hu; simp [setState, hu]
    · intro u _ h; exact h
    · intro _; exact ⟨by simp [setState], hinv⟩
    · intro u hu
      by_cases huv : u = v
      · subst huv; simp [setState] at hu
      · simp only [setState, huv, if_false] at hu
        exact hfail u hu
  · rw [if_neg hany]
    have hnone : ¬ ∃ d ∈ dependencies E v, st.state d = .failed ∨ st.state d = .skipped := by
      rintro ⟨d, hd, hs⟩
      apply hany
      rw [List.any_eq_true]
      exact ⟨d, hd, by simpa using hs⟩
    by_cases hh : halted = true
    · rw [if_pos hh]
      exact ⟨fun _ _ => rfl, fun _ _ h => h, fun h => absurd h hnone, hfail⟩
    · rw [if_neg hh]
      by_cases hall : (dependencies E v).all (fun d => decide (st.state d = .succeeded)) = true
      · rw [if_pos hall]
        cases hact : act v (st.results.filter fun r => r.1 ∈ dependencies E v) with
        | succeeded output =>
          refine ⟨?_, ?_, fun h => absurd h hnone, ?_⟩
          · intro u hu; simp [setState, hu]
          · intro u hu h
            rcases List.mem_append.mp h with h | h
            · exact h
            · exact absurd (List.mem_singleton.mp h) hu
          · intro u hu
            by_cases huv : u = v
            · subst huv; simp [setState] at hu
            · simp only [setState, huv, if_false] at hu
              exact hfail u hu
        | failed detail =>
          refine ⟨?_, ?_, fun h => absurd h hnone, ?_⟩
          · intro u hu; simp [setState, hu]
          · intro u hu h
            rcases List.mem_append.mp h with h | h
            · exact h
            · exact absurd (List.mem_singleton.mp h) hu
          · intro u hu
            by_cases huv : u = v
            · subst huv; simp
            · simp only [setState, huv, if_false] at hu
              exact List.mem_append.mpr (Or.inl (hfail u hu))
      · rw [if_neg hall]
        exact ⟨fun _ _ => rfl, fun _ _ h => h, fun h => absurd h hnone, hfail⟩

theorem stepNode_inv (E : List (NodeRef × NodeRef)) (act : ActionInvoker) (halted : Bool)
    (P : List NodeRef) (st : ExecState) (v : NodeRef)
    (hI : ExecInv E P st) (hv : v ∉ P) (hdeps : ∀ d ∈ dependencies E v, d ∈ P) :
    ExecInv E (P ++ [v]) (stepNode E act halted st v) := by
  obtain ⟨ha, hb, hc, hd⟩ := hI
  obtain ⟨s1, s2, s3, s4⟩ := stepNode_spec E act halted st v (ha v hv).1 (ha v hv).2 hd
  have hne : ∀ u, u ∈ P → u ≠ v := fun u hu h => hv (h ▸ hu)
  refine ⟨?_, ?_, ?_, s4⟩
  · intro u hu
    have hu2 : u ∉ P ∧ u ≠ v := by
      constructor
      · exact fun h => hu (List.mem_append.mpr (Or.inl h))
      · exact fun h => hu (List.mem_append.mpr (Or.inr (List.mem_singleton.mpr h)))
    rw [s1 u hu2.2]
    exact ⟨(ha u hu2.1).1, fun h => (ha u hu2.1).2 (s2 u hu2.2 h)⟩
  · intro u hu d hdm
    rcases List.mem_append.mp hu with hu | hu
    · exact List.mem_append.mpr (Or.inl (hb u hu d hdm))
    · rw [List.mem_singleton.mp hu] at hdm
      exact List.mem_append.mpr (Or.inl (hdeps d hdm))
  · intro u hu d hdm hs
    rcases List.mem_append.mp hu with hu | hu
    · have hdP := hb u hu d hdm
      rw [s1 d (hne d hdP)] at hs
      rw [s1 u (hne u hu)]
      exact ⟨(hc u hu d hdm hs).1, fun h => (hc u hu d hdm hs).2 (s2 u (hne u hu) h)⟩
    · have huv : u = v := List.mem_singleton.mp hu
      subst huv
      have hdP := hdeps d hdm
      rw [s1 d (hne d hdP)] at hs
      exact s3 ⟨d, hdm, hs⟩

theorem runLevel_inv (E : List (NodeRef × NodeRef)) (act : ActionInvoker) (halted : Bool)
    (A : List NodeRef) :
    ∀ (level P : List NodeRef) (st : ExecState),
      ExecInv E P st → level.Nodup → (∀ v ∈ level, v ∉ P) → (∀ u ∈ A, u ∈ P) →
      (∀ v ∈ level, ∀ d ∈ dependencies E v, d ∈ A) →
      ExecInv E (P ++ level) (runLevel E act halted st level) := by
  intro level
  induction level with
  | nil => intro P st hI _ _ _ _; simpa [runLevel] using hI
  | cons v level ih =>
    intro P st hI hnd hP hA hdeps
    have hstep := stepNode_inv E act halted P st v hI (hP v (List.mem_cons_self v level))
      (fun d hd => hA d (hdeps v (List.mem_cons_self v level) d hd))
    have hnd2 := List.nodup_cons.mp hnd
    have := ih (P ++ [v]) (stepNode E act halted st v) hstep hnd2.2
      (fun u hu hmem => by
        rcases List.mem_append.mp hmem with h | h
        · exact hP u (List.mem_cons_of_mem v hu) h
        · exact hnd2.1 (List.mem_singleton.mp h ▸ hu))
      (fun u hu => List.mem_append.mpr (Or.inl (hA u hu)))
      (fun u hu => hdeps u (List.mem_cons_of_mem v hu))
    simpa [runLevel, List.append_assoc] using this

theorem runLevels_inv (policy : Policy) (E : List (NodeRef × NodeRef)) (V : List NodeRef)
    (act : ActionInvoker) :
    ∀ (plan : ExecutionPlan) (A : List NodeRef) (st : ExecState),
      ExecInv E A st → EarliestLevels E V A plan →
      ExecInv E (A ++ plan.flatten) (runLevels policy E act st plan) ∧
        ∀ v ∈ V, v ∈ A ++ plan.flatten := by
  intro plan
  induction plan with
  | nil =>
    intro A st hI hE
    exact ⟨by simpa [runLevels] using hI, fun v hv => by simpa using hE v hv⟩
  | cons level rest ih =>
    intro A st hI hE
    obtain ⟨_, hnd, hL, hrest⟩ := hE
    have hlev := runLevel_inv E act (decide (policy = .failFast) && !st.failures.isEmpty) A
      level A st hI hnd (fun v hv => ((hL v).mp hv).2.1) (fun _ h => h)
      (fun v hv => ((hL v).mp hv).2.2)
    have := ih (A ++ level) _ hlev hrest
    simpa [runLevels, List.append_assoc] using this

theorem execInv_start (E : List (NodeRef × NodeRef)) : ExecInv E [] ExecState.start := by
  refine ⟨?_, ?_, ?_, ?_⟩
  · intro u _; exact ⟨rfl, by simp [ExecState.start]⟩
  · intro u hu; simp at hu
  · intro u hu; simp at hu
  · intro u hu; simp [ExecState.start] at hu

theorem execute_inv (graphs : List Graph) (links : ChainLinkTable) (plan : ExecutionPlan)
    (policy : Policy) (act : ActionInvoker) (h : resolve graphs links = .ok plan) :
    (∀ v ∈ vertices graphs, ∀ d ∈ dependencies (edges graphs links) v,
      ((execute policy (edges graphs links) act plan).state d = .failed ∨
        (execute policy (edges graphs links) act plan).state d = .skipped) →
      (execute policy (edges graphs links) act plan).state v = .skipped ∧
        v ∉ (execute policy (edges graphs links) act plan).invoked) ∧
    ((∃ u, (execute policy (edges graphs links) act plan).state u = .failed) →
      (outcome (execute policy (edges graphs links) act plan)).success = false) := by
  obtain ⟨⟨_, _, hc, hd⟩, hall⟩ := runLevels_inv policy (edges graphs links) (vertices graphs)
    act plan [] ExecState.start (execInv_start _) (resolve_earliest graphs links plan h)
  refine ⟨?_, ?_⟩
  · intro v hv d hdm hs
    exact hc v (hall v hv) d hdm hs
  · rintro ⟨u, hu⟩
    have hmem := hd u hu
    simp only [outcome, execute]
    cases hf : (runLevels policy (edges graphs links) act ExecState.start plan).failures with
    | nil => rw [hf] at hmem; simp at hmem
    | cons x xs => rfl

theorem resolve_two_node_graph (g : GraphID) (n1 n2 : NodeID) (hne : n1 ≠ n2) :
    resolve [⟨g, [⟨n1, []⟩, ⟨n2, [n1]⟩]⟩] [] = .ok [[(g, n1)], [(g, n2)]] := by
  have h12 : (g, n1) ≠ (g, n2) := fun h => hne (Prod.mk.inj h).2
  have h21 : (g, n2) ≠ (g, n1) := fun h => hne (Prod.mk.inj h).2.symm
  simp [resolve, vertices, edges, internalEdges, linkEdges, kahnLevels, inDegree, dependencies,
    decrement, h12, h21, hne, Ne.symm hne]

theorem execute_two_node_graph (g : GraphID) (n1 n2 : NodeID) (hne : n1 ≠ n2)
    (policy : Policy) (act : ActionInvoker) (detail : GoString)
    (hfail : act (g, n1) [] = .failed detail) :
    (execute policy (edges [⟨g, [⟨n1, []⟩, ⟨n2, [n1]⟩]⟩] []) act
      [[(g, n1)], [(g, n2)]]).state (g, n1) = .failed ∧
    (execute policy (edges [⟨g, [⟨n1, []⟩, ⟨n2, [n1]⟩]⟩] []) act
      [[(g, n1)], [(g, n2)]]).state (g, n2) = .skipped ∧
    (execute policy (edges [⟨g, [⟨n1, []⟩, ⟨n2, [n1]⟩]⟩] []) act
      [[(g, n1)], [(g, n2)]]).invoked = [(g, n1)] ∧
    (outcome (execute policy (edges [⟨g, [⟨n1, []⟩, ⟨n2, [n1]⟩]⟩] []) act
      [[(g, n1)], [(g, n2)]])).success = false := by
  have h12 : (g, n1) ≠ (g, n2) := fun h => hne (Prod.mk.inj h).2
  have h21 : (g, n2) ≠ (g, n1) := fun h => hne (Prod.mk.inj h).2.symm
  simp [execute, runLevels, runLevel, stepNode, ExecState.start, setState, outcome, edges,
    internalEdges, linkEdges, dependencies, h12, h21, hne, Ne.symm hne, hfail]

/-- C6: on a plan the resolver produced, under either policy, a node with a
dependency that ended `Failed` or `Skipped` ends `Skipped` and its action is not
invoked, and a run with a `Failed` node is marked not successful.  In
particular, under fail-fast, for the graph with a node `n1` without
dependencies and a node `n2` depending on `n1`: when the action of `n1` (run on
no inputs, `n1` having no dependency) fails, `n2` is not invoked, it ends
`Skipped`, and the outcome is not a success. -/
theorem executor_skips_dependents_of_failed (graphs : List Graph) (links : ChainLinkTable)
    (plan : ExecutionPlan) (policy : Policy) (act : ActionInvoker)
    (h : resolve graphs links = .ok plan) :
    (∀ v ∈ vertices graphs, ∀ d ∈ dependencies (edges graphs links) v,
      ((execute policy (edges graphs links) act plan).state d = .failed ∨
        (execute policy (edges graphs links) act plan).state d = .skipped) →
      (execute policy (edges graphs links) act plan).state v = .skipped ∧
        v ∉ (execute policy (edges graphs links) act plan).invoked) ∧
    ((∃ u, (execute policy (edges graphs links) act plan).state u = .failed) →
      (outcome (execute policy (edges graphs links) act plan)).success = false) ∧
    (∀ (g : GraphID) (n1 n2 : NodeID) (detail : GoString), n1 ≠ n2 →
      act (g, n1) [] = .failed detail →
      ∃ plan2, resolve [⟨g, [⟨n1, []⟩, ⟨n2, [n1]⟩]⟩] [] = .ok plan2 ∧
        (g, n2) ∉ (execute .failFast (edges [⟨g, [⟨n1, []⟩, ⟨n2, [n1]⟩]⟩] []) act
          plan2).invoked ∧
        (execute .failFast (edges [⟨g, [⟨n1, []⟩, ⟨n2, [n1]⟩]⟩] []) act
          plan2).state (g, n2) = .skipped ∧
        (outcome (execute .failFast (edges [⟨g, [⟨n1, []⟩, ⟨n2, [n1]⟩]⟩] []) act
          plan2)).success = false) := by
  obtain ⟨hgen, hsucc⟩ := execute_inv graphs links plan policy act h
  refine ⟨hgen, hsucc, ?_⟩
  intro g n1 n2 detail hne hfail
  obtain ⟨_, hskip, hinv, hout⟩ := execute_two_node_graph g n1 n2 hne .failFast act detail hfail
  refine ⟨[[(g, n1)], [(g, n2)]], resolve_two_node_graph g n1 n2 hne, ?_, hskip, hout⟩
  rw [hinv]
  intro hmem
  exact hne (Prod.mk.inj (List.mem_singleton.mp hmem)).2.symm

theorem executor_skips_dependents_of_failed_witness :
    resolve [⟨1, [⟨1, []⟩, ⟨2, [1]⟩, ⟨3, [2]⟩, ⟨4, []⟩]⟩] [] =
      .ok [[(1, 1), (1, 4)], [(1, 2)], [(1, 3)]] ∧
    (execute .failFast (edges [⟨1, [⟨1, []⟩, ⟨2, [1]⟩, ⟨3, [2]⟩, ⟨4, []⟩]⟩] [])
      (fun v _ => if v = (1, 1) then .failed "boom".toList else .succeeded 0)
      [[(1, 1), (1, 4)], [(1, 2)], [(1, 3)]]).state (1, 2) = .skipped ∧
    (execute .failFast (edges [⟨1, [⟨1, []⟩, ⟨2, [1]⟩, ⟨3, [2]⟩, ⟨4, []⟩]⟩] [])
      (fun v _ => if v = (1, 1) then .failed "boom".toList else .succeeded 0)
      [[(1, 1), (1, 4)], [(1, 2)], [(1, 3)]]).state (1, 3) = .skipped ∧
    (1, 3) ∉ (execute .failFast (edges [⟨1, [⟨1, []⟩, ⟨2, [1]⟩, ⟨3, [2]⟩, ⟨4, []⟩]⟩] [])
      (fun v _ => if v = (1, 1) then .failed "boom".toList else .succeeded 0)
      [[(1, 1), (1, 4)], [(1, 2)], [(1, 3)]]).invoked :=
  ⟨rfl,
    ((executor_skips_dependents_of_failed
      [⟨1, [⟨1, []⟩, ⟨2, [1]⟩, ⟨3, [2]⟩, ⟨4, []⟩]⟩] [] [[(1, 1), (1, 4)], [(1, 2)], [(1, 3)]]
      .failFast (fun v _ => if v = (1, 1) then .failed "boom".toList else .succeeded 0) rfl).1
      (1, 2) (by decide) (1, 1) (by decide) (Or.inl (by decide))).1,
    (executor_skips_dependents_of_failed
      [⟨1, [⟨1, []⟩, ⟨2, [1]⟩, ⟨3, [2]⟩, ⟨4, []⟩]⟩] [] [[(1, 1), (1, 4)], [(1, 2)], [(1, 3)]]
      .failFast (fun v _ => if v = (1, 1) then .failed "boom".toList else .succeeded 0) rfl).1
      (1, 3) (by decide) (1, 2) (by decide) (Or.inr (by decide))⟩

end ChainedGraphs
